import Mathlib

/-!
Verification of the blender-render coordinator/worker code
(main_server.py and client/main.py) against its specification.

Conventions of the embedding:
* frame numbers and range endpoints are `Int` (Python ints);
* Python generators driven by while-loops are embedded with an explicit
  fuel argument; an `Option`-valued variant (`none` = fuel exhausted)
  is used to reason about termination and divergence of the loop;
* filesystem paths are lists of path components (`List String`);
* byte streams are `List UInt8`, wire text is `List Char`.
-/

/- ============================================================
   Range algebra: split_ranges_by_chunk (main_server.py 86-91)

   def split_ranges_by_chunk(ranges, chunk_size):
       for a, b in ranges:
           cur = a
           while cur <= b:
               yield (cur, min(cur + chunk_size - 1, b))
               cur += chunk_size
   ============================================================ -/

/-- Fuel-indexed semantics of the inner while-loop of
`split_ranges_by_chunk`; `none` means the fuel was exhausted before the
loop finished, so the loop runs for at least `fuel` iterations. -/
def splitLoopF : Nat → Int → Int → Int → Option (List (Int × Int))
  | 0, _, _, _ => none
  | fuel + 1, cur, b, cs =>
    if cur ≤ b then
      match splitLoopF fuel (cur + cs) b cs with
      | none => none
      | some rest => some ((cur, min (cur + cs - 1) b) :: rest)
    else some []

/-- The inner while-loop of `split_ranges_by_chunk`, with fuel; once the
loop condition fails it stops, and exhausted fuel yields the chunks
produced so far. -/
def splitRangeGo : Nat → Int → Int → Int → List (Int × Int)
  | 0, _, _, _ => []
  | fuel + 1, cur, b, cs =>
    if cur ≤ b then (cur, min (cur + cs - 1) b) :: splitRangeGo fuel (cur + cs) b cs
    else []

/-- Enough fuel for the inner loop on range `[a, b]` when the chunk size
is at least 1: one iteration per frame plus the final test. -/
def splitRangeFuel (a b : Int) : Nat := (b + 1 - a).toNat + 1

/-- The chunks produced for a single input range `(a, b)`. -/
def splitRange (a b cs : Int) : List (Int × Int) :=
  splitRangeGo (splitRangeFuel a b) a b cs

/-- The function split_ranges_by_chunk (main_server.py 86-91): concatenation of the
inner-loop output over the input ranges, in order. -/
def split_ranges_by_chunk (ranges : List (Int × Int)) (cs : Int) : List (Int × Int) :=
  ranges.flatMap (fun r => splitRange r.1 r.2 cs)

theorem splitLoopF_mono :
    ∀ {f g : Nat} {cur b cs : Int} {l : List (Int × Int)},
      f ≤ g → splitLoopF f cur b cs = some l → splitLoopF g cur b cs = some l := by
  intro f
  induction f with
  | zero => intro g cur b cs l _ h; simp [splitLoopF] at h
  | succ n ih =>
    intro g cur b cs l hfg h
    match g, hfg with
    | g + 1, hfg =>
      simp only [splitLoopF] at h ⊢
      by_cases hc : cur ≤ b
      · rw [if_pos hc] at h
        rw [if_pos hc]
        cases hrec : splitLoopF n (cur + cs) b cs with
        | none => rw [hrec] at h; exact absurd h (by simp)
        | some rest =>
          rw [hrec] at h
          rw [ih (Nat.le_of_succ_le_succ hfg) hrec]
          exact h
      · rw [if_neg hc] at h
        rw [if_neg hc]
        exact h

theorem splitLoopF_agree :
    ∀ {f : Nat} {cur b cs : Int} {l : List (Int × Int)},
      splitLoopF f cur b cs = some l → splitRangeGo f cur b cs = l := by
  intro f
  induction f with
  | zero => intro cur b cs l h; simp [splitLoopF] at h
  | succ n ih =>
    intro cur b cs l h
    simp only [splitLoopF, splitRangeGo] at h ⊢
    by_cases hc : cur ≤ b
    · rw [if_pos hc] at h
      rw [if_pos hc]
      cases hrec : splitLoopF n (cur + cs) b cs with
      | none => rw [hrec] at h; exact absurd h (by simp)
      | some rest =>
        rw [hrec] at h
        have h2 := Option.some.inj h
        rw [← h2, ih hrec]
    · rw [if_neg hc] at h
      rw [if_neg hc]
      exact Option.some.inj h

theorem splitLoopF_converges (b cs : Int) (hcs : 1 ≤ cs) :
    ∀ (f : Nat) (cur : Int), (b + 1 - cur).toNat < f →
      splitLoopF f cur b cs = some (splitRangeGo f cur b cs) := by
  intro f
  induction f with
  | zero => intro cur h; omega
  | succ n ih =>
    intro cur hf
    simp only [splitLoopF, splitRangeGo]
    by_cases hc : cur ≤ b
    · have hn : (b + 1 - (cur + cs)).toNat < n := by omega
      rw [if_pos hc, if_pos hc, ih (cur + cs) hn]
    · rw [if_neg hc, if_neg hc]

theorem splitRangeGo_fuel (b cs : Int) (hcs : 1 ≤ cs) :
    ∀ (f g : Nat) (cur : Int), (b + 1 - cur).toNat < f → (b + 1 - cur).toNat < g →
      splitRangeGo f cur b cs = splitRangeGo g cur b cs := by
  intro f
  induction f with
  | zero => intro g cur hf; omega
  | succ n ih =>
    intro g cur hf hg
    match g, hg with
    | g + 1, hg =>
      simp only [splitRangeGo]
      by_cases hc : cur ≤ b
      · rw [if_pos hc, if_pos hc, ih g (cur + cs) (by omega) (by omega)]
      · rw [if_neg hc, if_neg hc]

/-- Unfolding law for `splitRange`: the inner loop yields
`(cur, min (cur+cs-1) b)` and advances `cur` by `cs`. -/
theorem splitRange_unfold (a b cs : Int) (hcs : 1 ≤ cs) :
    splitRange a b cs =
      if a ≤ b then (a, min (a + cs - 1) b) :: splitRange (a + cs) b cs else [] := by
  by_cases hc : a ≤ b
  · rw [if_pos hc]
    show splitRangeGo ((b + 1 - a).toNat + 1) a b cs = _
    simp only [splitRangeGo]
    rw [if_pos hc]
    exact congrArg (List.cons _)
      (splitRangeGo_fuel b cs hcs ((b + 1 - a).toNat) (splitRangeFuel (a + cs) b) (a + cs)
        (by omega) (by unfold splitRangeFuel; omega))
  · rw [if_neg hc]
    show splitRangeGo ((b + 1 - a).toNat + 1) a b cs = _
    simp only [splitRangeGo]
    rw [if_neg hc]

theorem splitRangeGo_mem (b cs : Int) (hcs : 1 ≤ cs) :
    ∀ (f : Nat) (cur x y : Int), (x, y) ∈ splitRangeGo f cur b cs →
      cur ≤ x ∧ x ≤ y ∧ y ≤ b ∧ y - x + 1 ≤ cs := by
  intro f
  induction f with
  | zero => intro cur x y h; simp [splitRangeGo] at h
  | succ n ih =>
    intro cur x y h
    simp only [splitRangeGo] at h
    by_cases hc : cur ≤ b
    · rw [if_pos hc] at h
      rcases List.mem_cons.mp h with h | h
      · have hx : x = cur := congrArg Prod.fst h
        have hy : y = min (cur + cs - 1) b := congrArg Prod.snd h
        subst hx; subst hy
        constructor
        · rfl
        · refine ⟨?_, ?_, ?_⟩ <;> omega
      · have := ih (cur + cs) x y h
        refine ⟨by omega, this.2⟩
    · rw [if_neg hc] at h
      simp at h

theorem splitRangeGo_cover (b cs : Int) (hcs : 1 ≤ cs) :
    ∀ (f : Nat) (cur t : Int), (b + 1 - cur).toNat < f → cur ≤ t → t ≤ b →
      ∃ c ∈ splitRangeGo f cur b cs, c.1 ≤ t ∧ t ≤ c.2 := by
  intro f
  induction f with
  | zero => intro cur t hf; omega
  | succ n ih =>
    intro cur t hf h1 h2
    have hc : cur ≤ b := le_trans h1 h2
    simp only [splitRangeGo, if_pos hc]
    by_cases ht : t ≤ min (cur + cs - 1) b
    · exact ⟨(cur, min (cur + cs - 1) b), List.mem_cons_self _ _, h1, ht⟩
    · have h1' : cur + cs ≤ t := by omega
      obtain ⟨c, hmem, hc1, hc2⟩ := ih (cur + cs) t (by omega) h1' h2
      exact ⟨c, List.mem_cons_of_mem _ hmem, hc1, hc2⟩

theorem splitRangeGo_chain (b cs : Int) (hcs : 1 ≤ cs) :
    ∀ (f : Nat) (cur : Int),
      List.Pairwise (fun c d : Int × Int => c.2 < d.1) (splitRangeGo f cur b cs) := by
  intro f
  induction f with
  | zero => intro cur; simp [splitRangeGo]
  | succ n ih =>
    intro cur
    simp only [splitRangeGo]
    by_cases hc : cur ≤ b
    · rw [if_pos hc]
      refine List.Pairwise.cons ?_ (ih (cur + cs))
      intro d hd
      have := splitRangeGo_mem b cs hcs n (cur + cs) d.1 d.2 (by simpa using hd)
      simp only
      omega
    · rw [if_neg hc]; exact List.Pairwise.nil

theorem splitRange_mem (a b cs : Int) (hcs : 1 ≤ cs) :
    ∀ c ∈ splitRange a b cs, a ≤ c.1 ∧ c.1 ≤ c.2 ∧ c.2 ≤ b ∧ c.2 - c.1 + 1 ≤ cs := by
  intro c hc
  exact splitRangeGo_mem b cs hcs _ a c.1 c.2 hc

theorem splitRange_cover (a b cs t : Int) (hcs : 1 ≤ cs) (h1 : a ≤ t) (h2 : t ≤ b) :
    ∃ c ∈ splitRange a b cs, c.1 ≤ t ∧ t ≤ c.2 :=
  splitRangeGo_cover b cs hcs _ a t (by unfold splitRangeFuel; omega) h1 h2

theorem split_mem (ranges : List (Int × Int)) (cs : Int) (hcs : 1 ≤ cs) :
    ∀ c ∈ split_ranges_by_chunk ranges cs,
      ∃ r ∈ ranges, r.1 ≤ c.1 ∧ c.1 ≤ c.2 ∧ c.2 ≤ r.2 ∧ c.2 - c.1 + 1 ≤ cs := by
  intro c hc
  obtain ⟨r, hr, hcr⟩ := List.mem_flatMap.mp hc
  exact ⟨r, hr, (splitRange_mem r.1 r.2 cs hcs c hcr).1, (splitRange_mem r.1 r.2 cs hcs c hcr).2⟩

theorem split_union (ranges : List (Int × Int)) (cs : Int) (hcs : 1 ≤ cs) (t : Int) :
    (∃ c ∈ split_ranges_by_chunk ranges cs, c.1 ≤ t ∧ t ≤ c.2) ↔
      ∃ r ∈ ranges, r.1 ≤ t ∧ t ≤ r.2 := by
  constructor
  · rintro ⟨c, hc, h1, h2⟩
    obtain ⟨r, hr, h3, _, h4, _⟩ := split_mem ranges cs hcs c hc
    exact ⟨r, hr, by omega, by omega⟩
  · rintro ⟨r, hr, h1, h2⟩
    obtain ⟨c, hc, h3, h4⟩ := splitRange_cover r.1 r.2 cs t hcs h1 h2
    exact ⟨c, List.mem_flatMap.mpr ⟨r, hr, hc⟩, h3, h4⟩

theorem split_chain (ranges : List (Int × Int)) (cs : Int) (hcs : 1 ≤ cs)
    (hsorted : List.Pairwise (fun r s : Int × Int => r.2 < s.1) ranges) :
    List.Pairwise (fun c d : Int × Int => c.2 < d.1) (split_ranges_by_chunk ranges cs) := by
  induction ranges with
  | nil => simp [split_ranges_by_chunk]
  | cons r rs ih =>
    have h1 := List.pairwise_cons.mp hsorted
    simp only [split_ranges_by_chunk, List.flatMap_cons]
    refine List.pairwise_append.mpr ⟨?_, ih h1.2, ?_⟩
    · exact splitRangeGo_chain r.2 cs hcs _ r.1
    · intro c hc d hd
      obtain ⟨_, hc2, hc3, _⟩ := splitRange_mem r.1 r.2 cs hcs c hc
      obtain ⟨s, hs, hd1, _, _, _⟩ := split_mem rs cs hcs d (by simpa [split_ranges_by_chunk] using hd)
      have := h1.1 s hs
      omega

/-- Fuel-indexed semantics of the whole generator: inner loop per input
range, results concatenated; `none` if any inner loop exhausts its fuel. -/
def splitAllF (fuel : Nat) (ranges : List (Int × Int)) (cs : Int) :
    Option (List (Int × Int)) :=
  match ranges with
  | [] => some []
  | r :: rs =>
    match splitLoopF fuel r.1 r.2 cs, splitAllF fuel rs cs with
    | some l, some rest => some (l ++ rest)
    | _, _ => none

/-- The inner loop of `split_ranges_by_chunk` never finishes when the
chunk size is non-positive and the range is nonempty: `cur` never
increases past `b`. -/
theorem splitLoopF_nonpos (cs b : Int) (hcs : cs ≤ 0) :
    ∀ (fuel : Nat) (cur : Int), cur ≤ b → splitLoopF fuel cur b cs = none := by
  intro fuel
  induction fuel with
  | zero => intro cur h; rfl
  | succ n ih =>
    intro cur h
    simp only [splitLoopF, if_pos h]
    rw [ih (cur + cs) (by omega)]

/-- Consuming the generator diverges: no amount of fuel completes the
inner loop on `[a, b]` with chunk size `cs`. -/
def splitLoopDiverges (a b cs : Int) : Prop :=
  ∀ fuel : Nat, splitLoopF fuel a b cs = none

theorem splitAllF_mono {f g : Nat} {cs : Int} {l : List (Int × Int)} :
    ∀ {ranges : List (Int × Int)}, f ≤ g → splitAllF f ranges cs = some l →
      splitAllF g ranges cs = some l := by
  intro ranges
  induction ranges generalizing l with
  | nil => intro _ h; exact h
  | cons r rs ih =>
    intro hfg h
    simp only [splitAllF] at h ⊢
    cases hr : splitLoopF f r.1 r.2 cs with
    | none => rw [hr] at h; exact absurd h (by simp)
    | some lr =>
      rw [hr] at h
      cases hrs : splitAllF f rs cs with
      | none => rw [hrs] at h; exact absurd h (by simp)
      | some lrs =>
        rw [hrs] at h
        rw [splitLoopF_mono hfg hr, ih hfg hrs]
        exact h

/-- With chunk size at least 1 the generator converges, and its value is
`split_ranges_by_chunk`. -/
theorem splitAllF_converges (ranges : List (Int × Int)) (cs : Int) (hcs : 1 ≤ cs) :
    ∃ fuel : Nat, splitAllF fuel ranges cs = some (split_ranges_by_chunk ranges cs) := by
  induction ranges with
  | nil => exact ⟨1, rfl⟩
  | cons r rs ih =>
    obtain ⟨f0, hf0⟩ := ih
    refine ⟨max f0 (splitRangeFuel r.1 r.2), ?_⟩
    have hbig : (r.2 + 1 - r.1).toNat < max f0 (splitRangeFuel r.1 r.2) := by
      have h := le_max_right f0 (splitRangeFuel r.1 r.2)
      unfold splitRangeFuel at h ⊢
      omega
    have h1 : splitLoopF (max f0 (splitRangeFuel r.1 r.2)) r.1 r.2 cs =
        some (splitRange r.1 r.2 cs) := by
      rw [splitLoopF_converges r.2 cs hcs _ r.1 hbig]
      exact congrArg some (splitRangeGo_fuel r.2 cs hcs _ (splitRangeFuel r.1 r.2) r.1
        hbig (by unfold splitRangeFuel; omega))
    have h2 : splitAllF (max f0 (splitRangeFuel r.1 r.2)) rs cs =
        some (split_ranges_by_chunk rs cs) :=
      splitAllF_mono (le_max_left _ _) hf0
    simp only [splitAllF, h1, h2]
    rfl

/-- Chunk size as computed at the only call site of
`split_ranges_by_chunk` (main_server.py 622-626):
cs = max(1, int(chunk_size.value.strip() or "100")), falling back to 100
when parsing raises. The argument is the successfully parsed integer, or
`none` on a parse error. -/
def effectiveChunkSize : Option Int → Int
  | some v => max 1 v
  | none => 100

/-- C3: for chunk size N ≥ 1, split_by_chunk yields for each input range
exactly the pairs (a, min(a+N-1,b)), (a+N, min(a+2N-1,b)), … advancing
the start by N; every chunk (x,y) has y-x+1 ≤ N (and x ≤ y); the union
of the chunks equals the union of the input ranges; and for input ranges
in ascending order the chunks appear in ascending order without
reordering across input-range boundaries. -/
theorem claim_C3 (ranges : List (Int × Int)) (cs : Int) (hcs : 1 ≤ cs) :
    (∀ a b : Int, splitRange a b cs =
        if a ≤ b then (a, min (a + cs - 1) b) :: splitRange (a + cs) b cs else []) ∧
    (split_ranges_by_chunk ranges cs = ranges.flatMap (fun r => splitRange r.1 r.2 cs)) ∧
    (∀ c ∈ split_ranges_by_chunk ranges cs, c.1 ≤ c.2 ∧ c.2 - c.1 + 1 ≤ cs) ∧
    (∀ t : Int, (∃ c ∈ split_ranges_by_chunk ranges cs, c.1 ≤ t ∧ t ≤ c.2) ↔
        ∃ r ∈ ranges, r.1 ≤ t ∧ t ≤ r.2) ∧
    (List.Pairwise (fun r s : Int × Int => r.2 < s.1) ranges →
      List.Pairwise (fun c d : Int × Int => c.2 < d.1) (split_ranges_by_chunk ranges cs)) := by
  refine ⟨fun a b => splitRange_unfold a b cs hcs, rfl, ?_, ?_, ?_⟩
  · intro c hc
    obtain ⟨r, _, _, h2, _, h4⟩ := split_mem ranges cs hcs c hc
    exact ⟨h2, h4⟩
  · exact split_union ranges cs hcs
  · exact split_chain ranges cs hcs

/-- Witness for C3 at the concrete plan of spec scenario 3:
missing ranges [(1,1),(4,6),(8,10)], chunk size 3. -/
theorem claim_C3_witness :
    split_ranges_by_chunk [((1 : Int), (1 : Int)), (4, 6), (8, 10)] 3 =
      [(1, 1), (4, 6), (8, 10)] ∧
    (((1 : Int), (1 : Int)).1 ≤ ((1 : Int), (1 : Int)).2 ∧
      ((1 : Int), (1 : Int)).2 - ((1 : Int), (1 : Int)).1 + 1 ≤ 3) :=
  ⟨by decide,
    (claim_C3 [(1, 1), (4, 6), (8, 10)] 3 (by decide)).2.2.1 (1, 1) (by decide)⟩

/-- C4 counterexample: invoked with chunk size 0 on the nonempty range
[0,0], split_by_chunk diverges (the inner loop completes under no amount
of fuel); it does not fail with an InvalidConfig error, which does not
exist in the code. -/
theorem claim_C4_counterexample : splitLoopDiverges 0 0 0 :=
  fun fuel => splitLoopF_nonpos 0 0 (by decide) fuel 0 (by decide)

/-- C4 (amended): split_by_chunk performs no chunk-size validation and
diverges for any N ≤ 0 on a nonempty range; its sole caller clamps the
configured chunk size to max(1, parsed) with fallback 100, so every
actual invocation has N ≥ 1 and terminates. -/
theorem claim_C4 (raw : Option Int) (ranges : List (Int × Int)) (a b cs : Int)
    (hab : a ≤ b) (hcs : cs ≤ 0) :
    1 ≤ effectiveChunkSize raw ∧
    splitLoopDiverges a b cs ∧
    (∃ fuel : Nat, splitAllF fuel ranges (effectiveChunkSize raw) =
        some (split_ranges_by_chunk ranges (effectiveChunkSize raw))) := by
  refine ⟨?_, fun fuel => splitLoopF_nonpos cs b hcs fuel a hab, ?_⟩
  · cases raw with
    | none => decide
    | some v => exact le_max_left 1 v
  · refine splitAllF_converges ranges (effectiveChunkSize raw) ?_
    cases raw with
    | none => decide
    | some v => exact le_max_left 1 v

/-- Witness for C4 (amended) at raw = -5, ranges = [(1,3)], divergent
call at N = 0 on [0,0]. -/
theorem claim_C4_witness :
    1 ≤ effectiveChunkSize (some (-5)) ∧
    splitLoopDiverges 0 0 0 ∧
    (∃ fuel : Nat, splitAllF fuel [((1 : Int), (3 : Int))] (effectiveChunkSize (some (-5))) =
        some (split_ranges_by_chunk [((1 : Int), (3 : Int))] (effectiveChunkSize (some (-5))))) :=
  claim_C4 (some (-5)) [(1, 3)] 0 0 0 (by decide) (by decide)

/-- C10: for chunk size N ≥ 1, split_ranges_by_chunk terminates on every
finite range list, producing the finite chunk list, and the guarantee
depends on N ≥ 1: with N = 0 the inner loop on [0,0] never finishes. -/
theorem claim_C10 (ranges : List (Int × Int)) (cs : Int) (hcs : 1 ≤ cs) :
    (∃ fuel : Nat, splitAllF fuel ranges cs = some (split_ranges_by_chunk ranges cs)) ∧
    splitLoopDiverges 0 0 0 :=
  ⟨splitAllF_converges ranges cs hcs,
    fun fuel => splitLoopF_nonpos 0 0 (by decide) fuel 0 (by decide)⟩

/-- Witness for C10 at ranges [(2,9)], chunk size 4. -/
theorem claim_C10_witness :
    (∃ fuel : Nat, splitAllF fuel [((2 : Int), (9 : Int))] 4 =
        some (split_ranges_by_chunk [((2 : Int), (9 : Int))] 4)) ∧
    splitLoopDiverges 0 0 0 :=
  claim_C10 [(2, 9)] 4 (by decide)

/- ============================================================
   Range algebra: contiguous_ranges (main_server.py 74-84)

   def contiguous_ranges(sorted_frames):
       if not sorted_frames: return
       start = prev = sorted_frames[0]
       for x in sorted_frames[1:]:
           if x == prev + 1: prev = x; continue
           yield (start, prev)
           start = prev = x
       yield (start, prev)
   ============================================================ -/

/-- The loop of `contiguous_ranges`: `start` and `prev` delimit the run
being grown, the list argument is the remaining input. -/
def contiguousGo (start prev : Int) : List Int → List (Int × Int)
  | [] => [(start, prev)]
  | x :: xs =>
    if x = prev + 1 then contiguousGo start x xs
    else (start, prev) :: contiguousGo x x xs

/-- The function contiguous_ranges (main_server.py 74-84). -/
def contiguous_ranges : List Int → List (Int × Int)
  | [] => []
  | x :: xs => contiguousGo x x xs

theorem contiguousGo_spec :
    ∀ (rest : List Int) (start prev : Int), start ≤ prev →
      List.Chain' (· < ·) (prev :: rest) →
      (∀ c ∈ contiguousGo start prev rest, start ≤ c.1 ∧ c.1 ≤ c.2) ∧
      (∀ t : Int, (∃ c ∈ contiguousGo start prev rest, c.1 ≤ t ∧ t ≤ c.2) ↔
        (start ≤ t ∧ t ≤ prev) ∨ t ∈ rest) ∧
      List.Pairwise (fun c d : Int × Int => c.2 + 1 < d.1) (contiguousGo start prev rest) := by
  intro rest
  induction rest with
  | nil =>
    intro start prev hsp _
    refine ⟨?_, ?_, ?_⟩
    · intro c hc
      rcases List.mem_cons.mp hc with h | h
      · subst h; exact ⟨le_refl _, hsp⟩
      · simp at h
    · intro t
      simp only [contiguousGo, List.mem_singleton, List.not_mem_nil, or_false]
      constructor
      · rintro ⟨c, hc, h1, h2⟩
        subst hc
        exact ⟨h1, h2⟩
      · rintro ⟨h1, h2⟩
        exact ⟨(start, prev), rfl, h1, h2⟩
    · exact List.pairwise_singleton _ _
  | cons x xs ih =>
    intro start prev hsp hch
    have hpx : prev < x := (List.chain'_cons.mp hch).1
    have hch2 : List.Chain' (· < ·) (x :: xs) := (List.chain'_cons.mp hch).2
    by_cases hx : x = prev + 1
    · have hstep := ih start x (by omega) hch2
      simp only [contiguousGo, if_pos hx]
      refine ⟨hstep.1, ?_, hstep.2.2⟩
      intro t
      rw [hstep.2.1 t]
      subst hx
      simp only [List.mem_cons]
      constructor
      · rintro (⟨h1, h2⟩ | h)
        · rcases lt_or_le t (prev + 1) with h3 | h3
          · exact Or.inl ⟨h1, by omega⟩
          · exact Or.inr (Or.inl (by omega))
        · exact Or.inr (Or.inr h)
      · rintro (⟨h1, h2⟩ | h | h)
        · exact Or.inl ⟨h1, by omega⟩
        · exact Or.inl ⟨by omega, by omega⟩
        · exact Or.inr h
    · have hstep := ih x x (le_refl x) hch2
      simp only [contiguousGo, if_neg hx]
      refine ⟨?_, ?_, ?_⟩
      · intro c hc
        rcases List.mem_cons.mp hc with h | h
        · subst h; exact ⟨le_refl _, hsp⟩
        · have := hstep.1 c h
          exact ⟨by omega, this.2⟩
      · intro t
        constructor
        · rintro ⟨c, hc, h1, h2⟩
          rcases List.mem_cons.mp hc with h | h
          · subst h
            exact Or.inl ⟨h1, h2⟩
          · rcases (hstep.2.1 t).mp ⟨c, h, h1, h2⟩ with ⟨h3, h4⟩ | h3
            · exact Or.inr (List.mem_cons.mpr (Or.inl (by omega)))
            · exact Or.inr (List.mem_cons.mpr (Or.inr h3))
        · intro hyp
          rcases hyp with ⟨h1, h2⟩ | hmem
          · exact ⟨(start, prev), List.mem_cons_self _ _, h1, h2⟩
          · rcases List.mem_cons.mp hmem with h | h
            · obtain ⟨c, hc, h1, h2⟩ := (hstep.2.1 t).mpr (Or.inl ⟨by omega, by omega⟩)
              exact ⟨c, List.mem_cons_of_mem _ hc, h1, h2⟩
            · obtain ⟨c, hc, h1, h2⟩ := (hstep.2.1 t).mpr (Or.inr h)
              exact ⟨c, List.mem_cons_of_mem _ hc, h1, h2⟩
      · refine List.Pairwise.cons ?_ hstep.2.2
        intro d hd
        have := hstep.1 d hd
        simp only
        omega

theorem pairwise_total_cases {α : Type} {R : α → α → Prop} :
    ∀ {l : List α}, List.Pairwise R l → ∀ {a b : α}, a ∈ l → b ∈ l →
      a = b ∨ R a b ∨ R b a := by
  intro l
  induction l with
  | nil => intro _ a b ha _; simp at ha
  | cons y ys ih =>
    intro hp a b ha hb
    have hhead := (List.pairwise_cons.mp hp).1
    have htail := (List.pairwise_cons.mp hp).2
    rcases List.mem_cons.mp ha with ha1 | ha1
    · rcases List.mem_cons.mp hb with hb1 | hb1
      · exact Or.inl (ha1.trans hb1.symm)
      · subst ha1
        exact Or.inr (Or.inl (hhead b hb1))
    · rcases List.mem_cons.mp hb with hb1 | hb1
      · subst hb1
        exact Or.inr (Or.inr (hhead a ha1))
      · exact ih htail ha1 hb1

/-- C5: on a strictly increasing list (the sorted deduplicated form of
any finite integer set), contiguous_ranges yields pairwise-disjoint
ranges in ascending order, each a maximal run of consecutive members
(neither a-1 nor b+1 belongs to the list, while everything in [a,b]
does), whose union equals the set of list members. -/
theorem claim_C5 (l : List Int) (hsorted : List.Chain' (· < ·) l) :
    (∀ t : Int, (∃ c ∈ contiguous_ranges l, c.1 ≤ t ∧ t ≤ c.2) ↔ t ∈ l) ∧
    List.Pairwise (fun c d : Int × Int => c.2 + 1 < d.1) (contiguous_ranges l) ∧
    (∀ c ∈ contiguous_ranges l, c.1 ≤ c.2 ∧ (c.1 - 1) ∉ l ∧ (c.2 + 1) ∉ l ∧
      ∀ t : Int, c.1 ≤ t → t ≤ c.2 → t ∈ l) := by
  cases l with
  | nil =>
    refine ⟨?_, List.Pairwise.nil, ?_⟩
    · intro t
      simp [contiguous_ranges]
    · intro c hc
      simp [contiguous_ranges] at hc
  | cons x xs =>
    have hspec := contiguousGo_spec xs x x (le_refl x) hsorted
    have hcover : ∀ t : Int,
        (∃ c ∈ contiguous_ranges (x :: xs), c.1 ≤ t ∧ t ≤ c.2) ↔ t ∈ x :: xs := by
      intro t
      show (∃ c ∈ contiguousGo x x xs, c.1 ≤ t ∧ t ≤ c.2) ↔ t ∈ x :: xs
      rw [hspec.2.1 t]
      constructor
      · rintro (⟨h1, h2⟩ | h)
        · exact List.mem_cons.mpr (Or.inl (by omega))
        · exact List.mem_cons.mpr (Or.inr h)
      · intro h
        rcases List.mem_cons.mp h with h | h
        · exact Or.inl ⟨by omega, by omega⟩
        · exact Or.inr h
    refine ⟨hcover, hspec.2.2, ?_⟩
    intro c hc
    have hc12 := hspec.1 c hc
    have hmemc : ∀ d ∈ contiguous_ranges (x :: xs), d.1 ≤ d.2 :=
      fun d hd => (hspec.1 d hd).2
    refine ⟨hc12.2, ?_, ?_, ?_⟩
    · intro habs
      obtain ⟨d, hd, hd1, hd2⟩ := (hcover (c.1 - 1)).mpr habs
      rcases pairwise_total_cases hspec.2.2 hc hd with h | h | h
      · subst h; omega
      · have := hmemc d hd; omega
      · have := hmemc d hd; omega
    · intro habs
      obtain ⟨d, hd, hd1, hd2⟩ := (hcover (c.2 + 1)).mpr habs
      rcases pairwise_total_cases hspec.2.2 hc hd with h | h | h
      · subst h; omega
      · have := hmemc d hd; omega
      · have := hmemc d hd; omega
    · intro t h1 h2
      exact (hcover t).mp ⟨c, hc, h1, h2⟩

/-- Witness for C5 on the strictly sorted list [1,2,3,7,8,10]. -/
theorem claim_C5_witness :
    contiguous_ranges [(1 : Int), 2, 3, 7, 8, 10] = [(1, 3), (7, 8), (10, 10)] ∧
    ((∃ c ∈ contiguous_ranges [(1 : Int), 2, 3, 7, 8, 10], c.1 ≤ 7 ∧ 7 ≤ c.2) ↔
      (7 : Int) ∈ [(1 : Int), 2, 3, 7, 8, 10]) :=
  ⟨by decide,
    (claim_C5 [1, 2, 3, 7, 8, 10]
      (by norm_num [List.chain'_cons, List.chain'_singleton])).1 7⟩

/- ============================================================
   Frame-set scanner: get_existing_frames (main_server.py 60-72)

   for p in render_dir.iterdir():
       if p.is_file():
           m = re.search(r'(\d+)$', p.stem) or re.search(r'(\d+)', p.stem)
           if m: frames.add(int(m.group(1)))
   ============================================================ -/

/-- Decimal value of a digit string, as computed by int() on an
all-digit string. -/
def digitsVal (l : List Char) : Nat :=
  l.foldl (fun acc c => acc * 10 + (c.toNat - 48)) 0

/-- Match of the regex (\d+)$ on a stem: the maximal trailing run of
digits, empty when the stem does not end in a digit. -/
def trailingRun (s : List Char) : List Char :=
  (s.reverse.takeWhile Char.isDigit).reverse

/-- Match of the regex (\d+) on a stem: the maximal digit run starting
at the first digit, empty when there is no digit. -/
def firstRun (s : List Char) : List Char :=
  (s.dropWhile (fun c => !c.isDigit)).takeWhile Char.isDigit

/-- Frame-number extraction from a filename stem (main_server.py 66-69):
re.search of (\d+)$ first, falling back to (\d+), then int(group 1). -/
def extractFrame (stem : List Char) : Option Nat :=
  match trailingRun stem with
  | [] =>
    match firstRun stem with
    | [] => none
    | l => some (digitsVal l)
  | l => some (digitsVal l)

/-- A directory entry as seen by render_dir.iterdir(): the stem of its
filename and whether it is a regular file. -/
structure DirEntry where
  stem : List Char
  isFile : Bool

/-- Body of the scanning loop (main_server.py 64-71). -/
def scanStep (acc : Finset Nat) (e : DirEntry) : Finset Nat :=
  if e.isFile then
    match extractFrame e.stem with
    | some n => insert n acc
    | none => acc
  else acc

/-- get_existing_frames (main_server.py 60-72); the argument is `none`
when the directory does not exist, otherwise its entry list. -/
def get_existing_frames : Option (List DirEntry) → Finset Nat
  | none => ∅
  | some entries => entries.foldl scanStep ∅

theorem scanStep_mem (acc : Finset Nat) (e : DirEntry) (n : Nat) :
    n ∈ scanStep acc e ↔ n ∈ acc ∨ (e.isFile = true ∧ extractFrame e.stem = some n) := by
  unfold scanStep
  by_cases hf : e.isFile = true
  · rw [if_pos hf]
    cases hx : extractFrame e.stem with
    | none => simp [hf]
    | some m =>
      rw [Finset.mem_insert]
      simp only [hf, true_and, Option.some.injEq]
      constructor
      · rintro (rfl | h)
        · exact Or.inr rfl
        · exact Or.inl h
      · rintro (h | rfl)
        · exact Or.inr h
        · exact Or.inl rfl
  · rw [if_neg hf]
    simp [hf]

theorem scan_foldl_mem :
    ∀ (es : List DirEntry) (acc : Finset Nat) (n : Nat),
      n ∈ es.foldl scanStep acc ↔
        n ∈ acc ∨ ∃ e ∈ es, e.isFile = true ∧ extractFrame e.stem = some n := by
  intro es
  induction es with
  | nil => intro acc n; simp
  | cons e es ih =>
    intro acc n
    rw [List.foldl_cons, ih, scanStep_mem]
    constructor
    · rintro ((h | h) | ⟨d, hd, h⟩)
      · exact Or.inl h
      · exact Or.inr ⟨e, List.mem_cons_self _ _, h⟩
      · exact Or.inr ⟨d, List.mem_cons_of_mem _ hd, h⟩
    · rintro (h | ⟨d, hd, h⟩)
      · exact Or.inl (Or.inl h)
      · rcases List.mem_cons.mp hd with rfl | hd
        · exact Or.inl (Or.inr h)
        · exact Or.inr ⟨d, hd, h⟩

theorem mem_takeWhile_true {p : Char → Bool} :
    ∀ (l : List Char) (c : Char), c ∈ l.takeWhile p → p c = true := by
  intro l
  induction l with
  | nil => intro c h; simp [List.takeWhile] at h
  | cons x xs ih =>
    intro c h
    rw [List.takeWhile_cons] at h
    by_cases hp : p x = true
    · rw [if_pos hp] at h
      rcases List.mem_cons.mp h with rfl | h
      · exact hp
      · exact ih c h
    · rw [if_neg hp] at h
      simp at h

theorem takeWhile_nil_of_all_false {p : Char → Bool} :
    ∀ (l : List Char), (∀ c ∈ l, p c = false) → l.takeWhile p = [] := by
  intro l h
  cases l with
  | nil => rfl
  | cons x xs =>
    rw [List.takeWhile_cons, if_neg]
    simp [h x (List.mem_cons_self _ _)]

theorem dropWhile_nil_of_all_true {p : Char → Bool} :
    ∀ (l : List Char), (∀ c ∈ l, p c = true) → l.dropWhile p = [] := by
  intro l
  induction l with
  | nil => intro _; rfl
  | cons x xs ih =>
    intro h
    rw [List.dropWhile_cons, if_pos (h x (List.mem_cons_self _ _))]
    exact ih (fun c hc => h c (List.mem_cons_of_mem _ hc))

theorem dropWhile_head_false {p : Char → Bool} :
    ∀ (l : List Char) (c : Char), (l.dropWhile p).head? = some c → p c = false := by
  intro l
  induction l with
  | nil => intro c h; simp [List.dropWhile] at h
  | cons x xs ih =>
    intro c h
    rw [List.dropWhile_cons] at h
    by_cases hp : p x = true
    · rw [if_pos hp] at h
      exact ih c h
    · rw [if_neg hp] at h
      simp only [List.head?_cons, Option.some.injEq] at h
      subst h
      simp at hp
      simp [hp]

theorem trailingRun_decomp (s : List Char) :
    s = (s.reverse.dropWhile Char.isDigit).reverse ++ trailingRun s := by
  unfold trailingRun
  rw [← List.reverse_append, List.takeWhile_append_dropWhile, List.reverse_reverse]

/-- C6: the scanner returns exactly the integers extracted from regular
files (maximal trailing digit run of the stem, else first digit run,
read as a decimal integer); subdirectories and digit-free names
contribute nothing; a missing directory yields the empty set. -/
theorem claim_C6 :
    get_existing_frames none = ∅ ∧
    (∀ (es : List DirEntry) (n : Nat),
      n ∈ get_existing_frames (some es) ↔
        ∃ e ∈ es, e.isFile = true ∧ extractFrame e.stem = some n) ∧
    (∀ stem : List Char, (∀ c ∈ stem, c.isDigit = false) → extractFrame stem = none) ∧
    (∀ stem : List Char, trailingRun stem ≠ [] →
      extractFrame stem = some (digitsVal (trailingRun stem)) ∧
      (∀ c ∈ trailingRun stem, c.isDigit = true) ∧
      ∃ pre, stem = pre ++ trailingRun stem ∧
        ∀ c, pre.getLast? = some c → c.isDigit = false) ∧
    (∀ stem : List Char, trailingRun stem = [] → firstRun stem ≠ [] →
      extractFrame stem = some (digitsVal (firstRun stem)) ∧
      (∀ c ∈ firstRun stem, c.isDigit = true) ∧
      ∃ pre post, stem = pre ++ firstRun stem ++ post ∧
        (∀ c ∈ pre, c.isDigit = false) ∧
        ∀ c, post.head? = some c → c.isDigit = false) := by
  refine ⟨rfl, ?_, ?_, ?_, ?_⟩
  · intro es n
    rw [show get_existing_frames (some es) = es.foldl scanStep ∅ from rfl,
      scan_foldl_mem]
    simp
  · intro stem hall
    have h1 : trailingRun stem = [] := by
      unfold trailingRun
      rw [takeWhile_nil_of_all_false]
      · rfl
      · intro c hc
        exact hall c (List.mem_reverse.mp hc)
    have h2 : firstRun stem = [] := by
      unfold firstRun
      have hd : stem.dropWhile (fun c => !c.isDigit) = [] :=
        dropWhile_nil_of_all_true stem (fun c hc => by simp [hall c hc])
      rw [hd]
      rfl
    unfold extractFrame
    rw [h1, h2]
  · intro stem htr
    refine ⟨?_, ?_, ?_⟩
    · unfold extractFrame
      cases h : trailingRun stem with
      | nil => exact absurd h htr
      | cons c cs => rfl
    · intro d hd
      unfold trailingRun at hd
      exact mem_takeWhile_true _ d (List.mem_reverse.mp hd)
    · refine ⟨(stem.reverse.dropWhile Char.isDigit).reverse, trailingRun_decomp stem, ?_⟩
      intro d hd
      rw [List.getLast?_reverse] at hd
      exact dropWhile_head_false _ d hd
  · intro stem htr hfr
    refine ⟨?_, ?_, ?_⟩
    · unfold extractFrame
      rw [htr]
      cases h : firstRun stem with
      | nil => exact absurd h hfr
      | cons c cs => rfl
    · intro d hd
      unfold firstRun at hd
      exact mem_takeWhile_true _ d hd
    · refine ⟨stem.takeWhile (fun c => !c.isDigit),
        (stem.dropWhile (fun c => !c.isDigit)).dropWhile Char.isDigit, ?_, ?_, ?_⟩
      · unfold firstRun
        rw [List.append_assoc, List.takeWhile_append_dropWhile,
          List.takeWhile_append_dropWhile]
      · intro d hd
        have hx := mem_takeWhile_true _ d hd
        simp at hx
        simp [hx]
      · intro d hd
        exact dropWhile_head_false _ d hd

/-- Directory used by the C6 witness: files frame0042 and notes, plus a
subdirectory named 7. -/
def scanDemo : List DirEntry :=
  [⟨"frame0042".data, true⟩, ⟨"notes".data, true⟩, ⟨"7".data, false⟩]

/-- Witness for C6 on a three-entry directory. -/
theorem claim_C6_witness :
    get_existing_frames none = ∅ ∧
    ((42 : Nat) ∈ get_existing_frames (some scanDemo) ↔
      ∃ e ∈ scanDemo, e.isFile = true ∧ extractFrame e.stem = some 42) :=
  ⟨claim_C6.1, claim_C6.2.1 scanDemo 42⟩

/- ============================================================
   Dependency scanner path mapping (main_server.py 131-140)

   for ap in deps:
       ap = Path(ap)
       try:
           rel = ap.relative_to(blend_path.parent)
           remote_rel = str(rel).replace("\\", "/")
       except ValueError:
           remote_rel = f"_external/{ap.name}"
       result.append((str(ap), remote_rel))
   ============================================================ -/

/-- Path.relative_to: succeeds when `parent` is a leading run of the
components of `ap`, returning the remaining components; raises
ValueError (`none`) otherwise. -/
def path_relative_to (ap parent : List String) : Option (List String) :=
  if ap.take parent.length = parent then some (ap.drop parent.length) else none

/-- Rendering str() of a relative path with forward-slash separators (the code
replaces backslashes by slashes); the empty relative path prints as "."
in pathlib. -/
def relPathStr (rel : List String) : String :=
  if rel = [] then "." else String.intercalate "/" rel

/-- Path.name: the final component. -/
def pathName (ap : List String) : String := ap.getLastD ""

/-- The remote relative path computed for one dependency
(main_server.py 133-138). -/
def remoteRelOf (parent ap : List String) : String :=
  match path_relative_to ap parent with
  | some rel => relPathStr rel
  | none => "_external/" ++ pathName ap

/-- Result loop of get_blend_dependencies (main_server.py 131-139). -/
def get_blend_dependencies (parent : List String) (deps : List (List String)) :
    List (List String × String) :=
  deps.map (fun ap => (ap, remoteRelOf parent ap))

/-- C7 counterexample: two external dependencies sharing the basename
x.png both map to "_external/x.png"; there is no _1/_2 suffixing, and
the produced remote relative paths are not distinct. -/
theorem claim_C7_counterexample :
    (get_blend_dependencies ["a", "b"] [["z", "x.png"], ["q", "x.png"]]).map Prod.snd =
      ["_external/x.png", "_external/x.png"] ∧
    ¬ ((get_blend_dependencies ["a", "b"]
        [["z", "x.png"], ["q", "x.png"]]).map Prod.snd).Nodup := by
  constructor
  · rfl
  · decide

/-- C7 (amended): each dependency inside the scene directory maps to its
relative path joined with forward slashes; every other dependency maps
to _external/<basename> with no collision resolution, so external paths
sharing a basename receive identical remote relative paths. -/
theorem claim_C7 (parent : List String) (deps : List (List String)) :
    (get_blend_dependencies parent deps =
      deps.map (fun ap => (ap, remoteRelOf parent ap))) ∧
    (∀ ap : List String, ap.take parent.length = parent →
      remoteRelOf parent ap = relPathStr (ap.drop parent.length)) ∧
    (∀ ap : List String, ap.take parent.length ≠ parent →
      remoteRelOf parent ap = "_external/" ++ pathName ap) ∧
    (∀ ap bp : List String, ap.take parent.length ≠ parent →
      bp.take parent.length ≠ parent → pathName ap = pathName bp →
      remoteRelOf parent ap = remoteRelOf parent bp) := by
  refine ⟨rfl, ?_, ?_, ?_⟩
  · intro ap h
    unfold remoteRelOf path_relative_to
    rw [if_pos h]
  · intro ap h
    unfold remoteRelOf path_relative_to
    rw [if_neg h]
  · intro ap bp ha hb hn
    unfold remoteRelOf path_relative_to
    rw [if_neg ha, if_neg hb]
    simp only
    rw [hn]

/-- Witness for C7 (amended) on spec scenario 6: scene directory a/b,
internal asset a/b/tex/x.png, external asset z/q/env.hdr. -/
theorem claim_C7_witness :
    get_blend_dependencies ["a", "b"] [["a", "b", "tex", "x.png"]] =
      [(["a", "b", "tex", "x.png"], "tex/x.png")] ∧
    remoteRelOf ["a", "b"] ["z", "q", "env.hdr"] = "_external/" ++ pathName ["z", "q", "env.hdr"] :=
  ⟨rfl, (claim_C7 ["a", "b"] []).2.2.1 ["z", "q", "env.hdr"] (by decide)⟩

/- ============================================================
   Scheduler chunk partition (main_server.py 630-641)

   workers = [("local", None)] + [("client", (ip, info)) for ip, info in active_clients]
   assignments = {("local", None): []}
   for ip, info in active_clients:
       assignments[("client", (ip, info))] = []
   for i, ch in enumerate(chunks):
       w = workers[i % len(workers)]
       assignments[w].append(ch)

   The dict keys are Python tuples; the client key embeds the worker
   info dict itself (clients[ip] is a dict, main_server.py 331). Python
   dicts are unhashable and hashing a tuple hashes its elements, so any
   operation using such a key raises TypeError: unhashable type: dict.
   ============================================================ -/

/-- The fragment of Python values appearing in the worker dict keys
built by start_render: None, strings, the info dict object, 2-tuples. -/
inductive PyVal where
  | pyNone : PyVal
  | pyStr : String → PyVal
  | pyDictObj : PyVal
  | pyPair : PyVal → PyVal → PyVal
deriving DecidableEq

/-- Whether hash() succeeds on a value: dicts are unhashable, a tuple is
hashable exactly when all its elements are. -/
def pyHashable : PyVal → Bool
  | .pyNone => true
  | .pyStr _ => true
  | .pyDictObj => false
  | .pyPair a b => pyHashable a && pyHashable b

/-- The dict key used for a worker slot: ("local", None) for the local
worker, ("client", (ip, info)) for a remote worker, where info is the
worker record dict. -/
def workerKey : Option String → PyVal
  | none => .pyPair (.pyStr "local") .pyNone
  | some ip => .pyPair (.pyStr "client") (.pyPair (.pyStr ip) .pyDictObj)

/-- Assignment d[k] = v on a Python dict modelled as an association list: the key
is hashed first, raising TypeError when it is unhashable. -/
def pyDictSet (d : List (PyVal × List (Int × Int))) (k : PyVal) (v : List (Int × Int)) :
    Except String (List (PyVal × List (Int × Int))) :=
  if pyHashable k then
    if d.any (fun e => e.1 == k) then
      .ok (d.map (fun e => if e.1 == k then (k, v) else e))
    else .ok (d ++ [(k, v)])
  else .error "unhashable type: dict"

/-- Lookup d[k]: hashes the key, then KeyError if absent. -/
def pyDictGet (d : List (PyVal × List (Int × Int))) (k : PyVal) :
    Except String (List (Int × Int)) :=
  if pyHashable k then
    match d.find? (fun e => e.1 == k) with
    | some e => .ok e.2
    | none => .error "KeyError"
  else .error "unhashable type: dict"

/-- The enumerate loop (main_server.py 638-640): chunk i is appended to
the assignment list of workers[i % len(workers)]. -/
def assignLoop (workers : List (Option String)) (chunks : List (Int × Int)) (i : Nat)
    (d : List (PyVal × List (Int × Int))) :
    Except String (List (PyVal × List (Int × Int))) :=
  match chunks with
  | [] => .ok d
  | ch :: rest =>
    match pyDictGet d (workerKey (workers.getD (i % workers.length) none)) with
    | .error e => .error e
    | .ok cur =>
      match pyDictSet d (workerKey (workers.getD (i % workers.length) none)) (cur ++ [ch]) with
      | .error e => .error e
      | .ok d2 => assignLoop workers rest (i + 1) d2

/-- Dict-initialisation loop over the selected clients
(main_server.py 636-637). -/
def initAssignments (activeIps : List String) (d : List (PyVal × List (Int × Int))) :
    Except String (List (PyVal × List (Int × Int))) :=
  match activeIps with
  | [] => .ok d
  | ip :: rest =>
    match pyDictSet d (workerKey (some ip)) [] with
    | .error e => .error e
    | .ok d2 => initAssignments rest d2

/-- start_render's chunk partition (main_server.py 630-641). -/
def buildAssignments (activeIps : List String) (chunks : List (Int × Int)) :
    Except String (List (PyVal × List (Int × Int))) :=
  match pyDictSet [] (workerKey none) [] with
  | .error e => .error e
  | .ok d0 =>
    match initAssignments activeIps d0 with
    | .error e => .error e
    | .ok d1 => assignLoop (none :: activeIps.map some) chunks 0 d1

theorem assignLoop_local :
    ∀ (chunks : List (Int × Int)) (i : Nat) (acc : List (Int × Int)),
      assignLoop [none] chunks i [(workerKey none, acc)] =
        .ok [(workerKey none, acc ++ chunks)] := by
  intro chunks
  induction chunks with
  | nil => intro i acc; simp [assignLoop]
  | cons ch rest ih =>
    intro i acc
    have h1 : assignLoop [none] (ch :: rest) i [(workerKey none, acc)] =
        assignLoop [none] rest (i + 1) [(workerKey none, acc ++ [ch])] := by
      simp [assignLoop, Nat.mod_one, pyDictGet, pyDictSet, pyHashable, workerKey]
    rw [h1, ih (i + 1) (acc ++ [ch])]
    simp

/-- C2 (code bug): as soon as one remote worker is selected, building
the assignments raises TypeError (the client dict key is unhashable
because it contains the info dict), so no chunk is ever assigned or
dispatched; with no remote workers the local slot receives every chunk. -/
theorem claim_C2 :
    buildAssignments ["192.168.1.50"] [(1, 2)] = .error "unhashable type: dict" ∧
    ∀ chunks : List (Int × Int),
      buildAssignments [] chunks = .ok [(workerKey none, chunks)] := by
  constructor
  · rfl
  · intro chunks
    show assignLoop [none] chunks 0 [(workerKey none, [])] = _
    rw [assignLoop_local chunks 0 []]
    rfl

/- ============================================================
   Discovery (client/main.py 201-213, main_server.py 308-341)

   Worker reply (client):
     reply = f"CLIENT|{hostname}|{addr[0]}|{JOB_PORT}".encode()
   Coordinator parse:
     msg = data.decode().split("|")
     if len(msg) >= 4 and msg[0] == "CLIENT":
         ip = addr[0]; hostname = msg[1]
         try: job_port = int(msg[3])
         except: job_port = JOB_PORT_DEFAULT
         ...store/update clients[ip]...
   ============================================================ -/

/-- Worker job-server port (client/main.py 15). -/
def JOB_PORT : Nat := 50010

/-- Coordinator fallback when parsing the advertised port fails
(main_server.py 20). -/
def JOB_PORT_DEFAULT : Nat := 50010

/-- Python str.split("|"). -/
def splitPipe : List Char → List (List Char)
  | [] => [[]]
  | c :: rest =>
    if c = '|' then [] :: splitPipe rest
    else
      match splitPipe rest with
      | [] => [[c]]
      | g :: gs => (c :: g) :: gs

/-- The worker discovery reply (client/main.py 211), as the character
sequence of f"CLIENT|{hostname}|{addr[0]}|{JOB_PORT}". -/
def workerReply (hostname coordIp : List Char) : List Char :=
  "CLIENT".data ++ '|' :: (hostname ++ '|' :: (coordIp ++ '|' :: (Nat.repr JOB_PORT).data))

/-- Python int() restricted to the nonnegative decimal strings occurring
here; all other inputs raise (`none`). -/
def pyInt? (s : List Char) : Option Nat :=
  if s ≠ [] ∧ s.all Char.isDigit then some (digitsVal s) else none

/-- A worker roster entry (main_server.py 331), minus the UI checkbox. -/
structure ClientInfo where
  hostname : List Char
  port : Nat
  selected : Bool

/-- Lookup of clients[ip] on the roster modelled as an association list. -/
def rosterFind : List (String × ClientInfo) → String → Option ClientInfo
  | [], _ => none
  | e :: es, ip => if e.1 == ip then some e.2 else rosterFind es ip

/-- Processing of one discovery datagram by discover_once
(main_server.py 315-336): split on the pipe, require at least four
fields led by CLIENT, key the roster on the datagram source address,
parse the advertised port falling back to JOB_PORT_DEFAULT; a new ip is
appended as selected, a known ip has hostname and port overwritten with
its selection state kept. -/
def processReply (roster : List (String × ClientInfo)) (data : List Char) (srcIp : String) :
    List (String × ClientInfo) :=
  if 4 ≤ (splitPipe data).length ∧ (splitPipe data).head? = some "CLIENT".data then
    match rosterFind roster srcIp with
    | none => roster ++ [(srcIp,
        ⟨(splitPipe data).getD 1 [],
          (pyInt? ((splitPipe data).getD 3 [])).getD JOB_PORT_DEFAULT, true⟩)]
    | some old => roster.map (fun e =>
        if e.1 == srcIp then
          (srcIp, ⟨(splitPipe data).getD 1 [],
            (pyInt? ((splitPipe data).getD 3 [])).getD JOB_PORT_DEFAULT, old.selected⟩)
        else e)
  else roster

theorem splitPipe_cons (c : Char) (rest : List Char) :
    splitPipe (c :: rest) =
      if c = '|' then [] :: splitPipe rest
      else match splitPipe rest with
        | [] => [[c]]
        | g :: gs => (c :: g) :: gs := rfl

theorem splitPipe_no_pipe :
    ∀ l : List Char, ('|') ∉ l → splitPipe l = [l] := by
  intro l
  induction l with
  | nil => intro _; rfl
  | cons c rest ih =>
    intro hmem
    have hc : ¬ c = '|' := fun h => hmem (h ▸ List.mem_cons_self _ _)
    have hrest : ('|') ∉ rest := fun h => hmem (List.mem_cons_of_mem _ h)
    rw [splitPipe_cons, if_neg hc, ih hrest]

theorem splitPipe_append :
    ∀ (A B : List Char), ('|') ∉ A → splitPipe (A ++ '|' :: B) = A :: splitPipe B := by
  intro A
  induction A with
  | nil =>
    intro B _
    exact rfl
  | cons a A ih =>
    intro B hmem
    have ha : ¬ a = '|' := fun h => hmem (h ▸ List.mem_cons_self _ _)
    have hA : ('|') ∉ A := fun h => hmem (List.mem_cons_of_mem _ h)
    show splitPipe (a :: (A ++ '|' :: B)) = (a :: A) :: splitPipe B
    rw [splitPipe_cons, if_neg ha, ih B hA]

theorem workerReply_split (h ip : List Char) (hh : ('|') ∉ h) (hip : ('|') ∉ ip) :
    splitPipe (workerReply h ip) =
      ["CLIENT".data, h, ip, (Nat.repr JOB_PORT).data] := by
  unfold workerReply
  rw [splitPipe_append _ _ (by decide), splitPipe_append _ _ hh,
    splitPipe_append _ _ hip, splitPipe_no_pipe _ (by decide)]

theorem rosterFind_cons (e : String × ClientInfo) (es : List (String × ClientInfo))
    (ip : String) :
    rosterFind (e :: es) ip = if e.1 == ip then some e.2 else rosterFind es ip := rfl

theorem rosterFind_append_none :
    ∀ (roster : List (String × ClientInfo)) (ip : String) (info : ClientInfo),
      rosterFind roster ip = none →
      rosterFind (roster ++ [(ip, info)]) ip = some info := by
  intro roster
  induction roster with
  | nil =>
    intro ip info _
    show rosterFind [(ip, info)] ip = some info
    rw [rosterFind_cons, if_pos (by simp)]
  | cons e es ih =>
    intro ip info hnone
    rw [rosterFind_cons] at hnone
    by_cases hb : (e.1 == ip) = true
    · rw [if_pos hb] at hnone
      exact absurd hnone (by simp)
    · rw [if_neg hb] at hnone
      rw [List.cons_append, rosterFind_cons, if_neg hb]
      exact ih ip info hnone

theorem rosterFind_update :
    ∀ (roster : List (String × ClientInfo)) (ip : String) (new : ClientInfo) (old : ClientInfo),
      rosterFind roster ip = some old →
      rosterFind (roster.map (fun e => if e.1 == ip then (ip, new) else e)) ip = some new := by
  intro roster
  induction roster with
  | nil => intro ip new old h; exact absurd h (by simp [rosterFind])
  | cons e es ih =>
    intro ip new old h
    rw [rosterFind_cons] at h
    by_cases hb : (e.1 == ip) = true
    · rw [List.map_cons, if_pos hb, rosterFind_cons, if_pos (by simp)]
    · rw [List.map_cons, if_neg hb, rosterFind_cons, if_neg hb]
      rw [if_neg hb] at h
      exact ih ip new old h

/-- C8: the worker reply is the pipe-delimited string
CLIENT|hostname|ip_as_seen_by_client|job_port, and the coordinator parse
of that reply recovers the declared hostname and job port, recorded in
the roster keyed by the reply datagram source IP. -/
theorem claim_C8 (h ip : List Char) (srcIp : String) (roster : List (String × ClientInfo))
    (hh : ('|') ∉ h) (hip : ('|') ∉ ip) :
    splitPipe (workerReply h ip) =
      ["CLIENT".data, h, ip, (Nat.repr JOB_PORT).data] ∧
    ∃ info : ClientInfo,
      rosterFind (processReply roster (workerReply h ip) srcIp) srcIp = some info ∧
      info.hostname = h ∧ info.port = JOB_PORT := by
  have hsplit := workerReply_split h ip hh hip
  refine ⟨hsplit, ?_⟩
  have hcond : 4 ≤ (splitPipe (workerReply h ip)).length ∧
      (splitPipe (workerReply h ip)).head? = some "CLIENT".data := by
    rw [hsplit]
    exact ⟨by simp, rfl⟩
  have hhost : (splitPipe (workerReply h ip)).getD 1 [] = h := by
    rw [hsplit]
    rfl
  have hport : (pyInt? ((splitPipe (workerReply h ip)).getD 3 [])).getD JOB_PORT_DEFAULT =
      JOB_PORT := by
    rw [hsplit]
    exact (by decide :
      (pyInt? ((Nat.repr JOB_PORT).data)).getD JOB_PORT_DEFAULT = JOB_PORT)
  unfold processReply
  rw [if_pos hcond, hhost, hport]
  cases hfind : rosterFind roster srcIp with
  | none =>
    exact ⟨⟨h, JOB_PORT, true⟩, rosterFind_append_none roster srcIp _ hfind, rfl, rfl⟩
  | some old =>
    exact ⟨⟨h, JOB_PORT, old.selected⟩, rosterFind_update roster srcIp _ old hfind, rfl, rfl⟩

/-- Witness for C8: hostname render1, coordinator ip 10.0.0.2 as seen by
the client, reply arriving from worker address 10.0.0.9, empty roster. -/
theorem claim_C8_witness :
    splitPipe (workerReply "render1".data "10.0.0.2".data) =
      ["CLIENT".data, "render1".data, "10.0.0.2".data, (Nat.repr JOB_PORT).data] ∧
    ∃ info : ClientInfo,
      rosterFind
          (processReply [] (workerReply "render1".data "10.0.0.2".data) "10.0.0.9")
          "10.0.0.9" = some info ∧
      info.hostname = "render1".data ∧ info.port = JOB_PORT :=
  claim_C8 "render1".data "10.0.0.2".data "10.0.0.9" [] (by decide) (by decide)

/- ============================================================
   Coordinator upload server (main_server.py 258-295)

   hlen = unpack("!I", conn.recv(4))
   header = json.loads(conn.recv(hlen).decode("utf-8"))
   frame_num = int(header["frame"]); filename = header["filename"]
   size = unpack("!Q", conn.recv(8))[0]
   render_dir = get_render_dir_fn()
   out_path = render_dir / filename
   with open(out_path, "wb") as f:
       remaining = size
       while remaining > 0:
           chunk = conn.recv(min(4096, remaining))
           if not chunk: break
           f.write(chunk); remaining -= len(chunk)
   log("[MAIN] Received frame ..."); progress_cb(frame_num)
   except Exception: log("[ERROR] Frame upload ...")
   finally: conn.close()

   The matching client header (client/main.py 42) is
   {"frame": frame_num, "filename": img_path.name}: no job_id field.
   ============================================================ -/

/-- The payload-read loop, fuelled by the declared size itself (every
recv consumes at least one byte of the stream or ends the loop). -/
def readBodyGo : Nat → Nat → List UInt8 → List UInt8
  | 0, _, _ => []
  | _ + 1, 0, _ => []
  | fuel + 1, r + 1, s =>
    if (s.take (min 4096 (r + 1))).isEmpty then []
    else s.take (min 4096 (r + 1)) ++
      readBodyGo fuel (r + 1 - (s.take (min 4096 (r + 1))).length) (s.drop (min 4096 (r + 1)))

/-- Bytes written by the payload loop when the declared size is
`remaining` and the connection delivers exactly `stream`. -/
def readBody (remaining : Nat) (stream : List UInt8) : List UInt8 :=
  readBodyGo remaining remaining stream

theorem readBodyGo_succ (fuel r : Nat) (s : List UInt8) :
    readBodyGo (fuel + 1) (r + 1) s =
      if (s.take (min 4096 (r + 1))).isEmpty then []
      else s.take (min 4096 (r + 1)) ++
        readBodyGo fuel (r + 1 - (s.take (min 4096 (r + 1))).length)
          (s.drop (min 4096 (r + 1))) := rfl

theorem readBodyGo_nil : ∀ (fuel r : Nat), readBodyGo fuel r ([] : List UInt8) = [] := by
  intro fuel r
  match fuel, r with
  | 0, _ => rfl
  | _ + 1, 0 => rfl
  | f + 1, r + 1 =>
    rw [readBodyGo_succ]
    simp

theorem readBodyGo_eq_take :
    ∀ (fuel r : Nat) (s : List UInt8), r ≤ fuel → readBodyGo fuel r s = s.take r := by
  intro fuel
  induction fuel with
  | zero =>
    intro r s hr
    have h0 : r = 0 := by omega
    subst h0
    rfl
  | succ f ih =>
    intro r s hr
    match r, s with
    | 0, s => rfl
    | r + 1, [] => rw [readBodyGo_nil, List.take_nil]
    | r + 1, c :: s2 =>
      rw [readBodyGo_succ]
      have hk1 : 1 ≤ min 4096 (r + 1) := by omega
      have hne : (((c :: s2).take (min 4096 (r + 1))).isEmpty) = false := by
        cases hmin : min 4096 (r + 1) with
        | zero => omega
        | succ k => rfl
      rw [if_neg (by simp [hne])]
      have hlen : ((c :: s2).take (min 4096 (r + 1))).length =
          min (min 4096 (r + 1)) (s2.length + 1) := by
        rw [List.length_take]
        rfl
      rcases le_or_lt (s2.length + 1) (min 4096 (r + 1)) with hc | hc
      · have hdrop : (c :: s2).drop (min 4096 (r + 1)) = [] :=
          List.drop_eq_nil_of_le (by simpa using hc)
        have htake : (c :: s2).take (min 4096 (r + 1)) = c :: s2 :=
          List.take_of_length_le (by simpa using hc)
        have htake2 : (c :: s2).take (r + 1) = c :: s2 :=
          List.take_of_length_le (by simp; omega)
        rw [hdrop, htake, htake2, readBodyGo_nil, List.append_nil]
      · have hlen2 : ((c :: s2).take (min 4096 (r + 1))).length = min 4096 (r + 1) := by
          rw [hlen]
          omega
        rw [hlen2]
        rw [ih (r + 1 - min 4096 (r + 1)) ((c :: s2).drop (min 4096 (r + 1))) (by omega)]
        have hsplit : r + 1 = min 4096 (r + 1) + (r + 1 - min 4096 (r + 1)) := by omega
        conv_rhs => rw [hsplit, List.take_add]

/-- The loop writes exactly the first `remaining` bytes the connection
delivers (all of them when the payload is truncated). -/
theorem readBody_eq_take (remaining : Nat) (stream : List UInt8) :
    readBody remaining stream = stream.take remaining :=
  readBodyGo_eq_take remaining remaining stream (le_refl remaining)

/-- One upload connection as consumed by the handler: the result of
parsing the JSON header and extracting frame and filename (`none` for
any header failure), the declared uint64 size, the body bytes the
connection actually delivers, and whether opening/writing the
destination file succeeds. -/
structure UploadConn where
  headerOk : Option (Int × String)
  sizeDeclared : Nat
  payload : List UInt8
  writeOk : Bool

/-- Observable outcome of one connection: the file written (directory,
filename, bytes), the progress event emitted, whether the error path
was logged. The finally-clause closes the connection in every case. -/
structure UploadOutcome where
  written : Option (List String × String × List UInt8)
  progressEvent : Option Int
  errorLogged : Bool

/-- Per-connection body of the upload server's accept loop
(main_server.py 266-294). -/
def handleUpload (render_dir : List String) (c : UploadConn) : UploadOutcome :=
  match c.headerOk with
  | none => ⟨none, none, true⟩
  | some (frame, filename) =>
    if c.writeOk then
      ⟨some (render_dir, filename, readBody c.sizeDeclared c.payload), some frame, false⟩
    else ⟨none, none, true⟩

/-- start_upload_server (main_server.py 258-295): the while-True accept
loop with a per-connection try/except processes every connection. -/
def start_upload_server (render_dir : List String) (conns : List UploadConn) :
    List UploadOutcome :=
  conns.map (handleUpload render_dir)

/-- C9 counterexample: a truncated upload (2 of 4 declared bytes) is not
dropped — the handler logs receipt and still emits the frame-received
progress event. -/
theorem claim_C9_counterexample :
    (⟨some (7, "0007.png"), 4, [1, 2], true⟩ : UploadConn).payload.length <
      (⟨some (7, "0007.png"), 4, [1, 2], true⟩ : UploadConn).sizeDeclared ∧
    (handleUpload ["out"] ⟨some (7, "0007.png"), 4, [1, 2], true⟩).progressEvent = some 7 ∧
    (handleUpload ["out"] ⟨some (7, "0007.png"), 4, [1, 2], true⟩).errorLogged = false :=
  ⟨by decide, rfl, rfl⟩

/-- C9 (amended): header-parse failures and file-write failures are
logged and dropped with no progress event, and the server processes
every connection (no crash); a truncated payload, however, is written as
a short file and still produces the frame-received progress event. -/
theorem claim_C9 (render_dir : List String) (conns : List UploadConn) (c : UploadConn)
    (f : Int) (fn : String) :
    (c.headerOk = none → handleUpload render_dir c = ⟨none, none, true⟩) ∧
    (c.headerOk = some (f, fn) → c.writeOk = false →
      handleUpload render_dir c = ⟨none, none, true⟩) ∧
    (c.headerOk = some (f, fn) → c.writeOk = true →
      (handleUpload render_dir c).progressEvent = some f ∧
      (handleUpload render_dir c).written =
        some (render_dir, fn, c.payload.take c.sizeDeclared)) ∧
    (start_upload_server render_dir conns).length = conns.length := by
  refine ⟨?_, ?_, ?_, by simp [start_upload_server]⟩
  · intro h
    simp [handleUpload, h]
  · intro h hw
    simp [handleUpload, h, hw]
  · intro h hw
    constructor
    · simp [handleUpload, h, hw]
    · simp [handleUpload, h, hw, readBody_eq_take]

/-- Witness for C9 (amended): one bad header, one good connection. -/
theorem claim_C9_witness :
    handleUpload ["out"] ⟨none, 4, [1, 2], true⟩ = ⟨none, none, true⟩ ∧
    (handleUpload ["out"] ⟨some ((7 : Int), "0007.png"), 4, [1, 2, 3, 4], true⟩).progressEvent =
      some 7 ∧
    (handleUpload ["out"] ⟨some ((7 : Int), "0007.png"), 4, [1, 2, 3, 4], true⟩).written =
      some (["out"], "0007.png", ([1, 2, 3, 4] : List UInt8).take 4) :=
  ⟨(claim_C9 ["out"] [] ⟨none, 4, [1, 2], true⟩ 0 "").1 rfl,
    ((claim_C9 ["out"] [] ⟨some (7, "0007.png"), 4, [1, 2, 3, 4], true⟩ 7 "0007.png").2.2.1
      rfl rfl).1,
    ((claim_C9 ["out"] [] ⟨some (7, "0007.png"), 4, [1, 2, 3, 4], true⟩ 7 "0007.png").2.2.1
      rfl rfl).2⟩

/- ============================================================
   Upload destination selection (main_server.py 581-589, 602)

   current_blend_file = [None]
   def get_render_dir():
       if not current_blend_file[0]:
           return (Path(out_root.value).resolve() / "RENDERS").resolve()
       return (Path(out_root.value).resolve() / current_blend_file[0].stem).resolve()
   start_render: current_blend_file[0] = blend_file  (line 602)
   ============================================================ -/

/-- Coordinator state consulted by the upload server: the output root
and the stem of the currently selected blend file. -/
structure CoordState where
  out_root : List String
  currentStem : Option String

/-- get_render_dir (main_server.py 583-587). -/
def get_render_dir (st : CoordState) : List String :=
  match st.currentStem with
  | none => st.out_root ++ ["RENDERS"]
  | some stem => st.out_root ++ [stem]

/-- output_dir(Scene) = out_root / stem(scene). -/
def output_dir (root : List String) (stem : String) : List String := root ++ [stem]

/-- Coordinator events relevant to upload routing: start_render on a
scene repoints current_blend_file (main_server.py 602); an upload
arrives from the job of some scene. The producer stem is ghost
information identifying that job — the wire header (client/main.py 42)
carries only frame and filename, so the handler cannot consult it. -/
inductive CoordEvent where
  | startRender : String → CoordEvent
  | upload : String → UploadConn → CoordEvent

/-- One coordinator step; an upload returns (producer, outcome). -/
def coordStep (st : CoordState) :
    CoordEvent → CoordState × Option (String × UploadOutcome)
  | .startRender stem => (⟨st.out_root, some stem⟩, none)
  | .upload producer conn => (st, some (producer, handleUpload (get_render_dir st) conn))

/-- Run of a coordinator trace, collecting upload outcomes in order. -/
def coordRun (st : CoordState) : List CoordEvent → List (String × UploadOutcome)
  | [] => []
  | e :: rest =>
    match coordStep st e with
    | (st2, none) => coordRun st2 rest
    | (st2, some out) => out :: coordRun st2 rest

/-- C1 counterexample: scene A's job is dispatched, then start_render on
scene B repoints the current blend; the upload produced by A's job is
written under root/B, not output_dir(A) = root/A, so the destination is
not determined by the producing job (the upload header carries no
job_id). -/
theorem claim_C1_counterexample :
    coordRun ⟨["root"], none⟩
        [.startRender "A", .startRender "B",
          .upload "A" ⟨some (5, "0005.png"), 2, [9, 9], true⟩] =
      [("A", ⟨some (["root", "B"], "0005.png", readBody 2 [9, 9]), some 5, false⟩)] ∧
    readBody 2 [9, 9] = [9, 9] ∧
    (["root", "B"] : List String) ≠ output_dir ["root"] "A" := by
  refine ⟨rfl, ?_, by decide⟩
  rw [readBody_eq_take]
  rfl

/-- C1 (amended): the upload header carries only frame and filename (no
job_id); the server writes to get_render_dir, i.e. out_root/stem of the
scene of the most recent start_render (out_root/RENDERS before any), so
an upload lands in the producing scene's output_dir exactly when that
scene is still the current selection at arrival. -/
theorem claim_C1 (st : CoordState) (producer : String) (conn : UploadConn)
    (f : Int) (fn : String)
    (hcur : st.currentStem = some producer)
    (hhdr : conn.headerOk = some (f, fn)) (hw : conn.writeOk = true) :
    (coordStep st (.upload producer conn)).2 =
      some (producer,
        ⟨some (output_dir st.out_root producer, fn, conn.payload.take conn.sizeDeclared),
          some f, false⟩) := by
  simp [coordStep, handleUpload, hhdr, hw, get_render_dir, hcur, output_dir,
    readBody_eq_take]

/-- Witness for C1 (amended): scene A still current when its frame
arrives. -/
theorem claim_C1_witness :
    (coordStep ⟨["root"], some "A"⟩
        (.upload "A" ⟨some ((5 : Int), "0005.png"), 2, [9, 9], true⟩)).2 =
      some ("A", ⟨some (output_dir ["root"] "A", "0005.png",
        ([9, 9] : List UInt8).take 2), some 5, false⟩) :=
  claim_C1 ⟨["root"], some "A"⟩ "A" ⟨some (5, "0005.png"), 2, [9, 9], true⟩ 5 "0005.png"
    rfl rfl rfl
